import Mathlib

/-!
Verification development for the CVEMaps association-extraction and graph
construction pipeline. Each Python builder that the claims refer to is given a
shallow embedding below, translated directly from the scripts in the
repository (`scripts/build_graph.py`, `scripts/build_alternative_graphs.py`,
`scripts/build_extended_graphs.py`, `scripts/build_analytical_graphs.py`,
`build_compact_graphs.py`), and the claimed properties are proved or refuted
about those embeddings.
-/

namespace CVEMaps

/-- A normalized record as produced by the per-file loop of `parse_cve_files`
(`scripts/build_graph.py`): the assigning authority key (the `cna` variable)
and the weakness codes collected into the Python set `cwes_found`. -/
structure Record where
  cna : String
  cwes : Finset String
deriving DecidableEq

/-- Net effect on the `associations` mapping of the loop
`for cwe in cwes_found: associations[(cna, cwe)] += 1`
(`scripts/build_graph.py` lines 145-146): each pair `(cna, cwe)` with `cwe` a
member of the record's weakness set is incremented exactly once; the iteration
order over the Python set is immaterial because the increments commute. -/
def addRecordAssoc (m : String × String → Nat) (r : Record) : String × String → Nat :=
  fun p => if p.1 = r.cna ∧ p.2 ∈ r.cwes then m p + 1 else m p

/-- The `associations` mapping built by `parse_cve_files` over the corpus of
kept records; the `defaultdict(int)` starts every key at `0`. -/
def parse_cve_files_assoc (records : List Record) : String × String → Nat :=
  records.foldl addRecordAssoc (fun _ => 0)

/-- The key set of the `associations` defaultdict: a key is present exactly
when it has been incremented at least once. -/
def assocKeys (records : List Record) : Finset (String × String) :=
  records.foldl (fun K r => K ∪ r.cwes.image (fun w => (r.cna, w))) ∅

/-- `itertools.combinations(l, 2)`: all pairs `(l[i], l[j])` with `i < j`,
enumerated in order. -/
def pairsAsc : List String → List (String × String)
  | [] => []
  | x :: xs => xs.map (fun y => (x, y)) ++ pairsAsc xs

/-- One `edge_weights[(cwe1, cwe2)] += 1` update of
`build_cwe_cooccurrence_graph` (`scripts/build_alternative_graphs.py`). -/
def bump (m : String × String → Nat) (k : String × String) : String × String → Nat :=
  fun p => if p = k then m p + 1 else m p

/-- Per-record step of `build_cwe_cooccurrence_graph`
(`scripts/build_alternative_graphs.py` lines 148-152):
`if len(cwes) > 1: for cwe1, cwe2 in combinations(sorted(cwes), 2):
edge_weights[(cwe1, cwe2)] += 1`. -/
def addCoocRecord (m : String × String → Nat) (cwes : Finset String) :
    String × String → Nat :=
  if 1 < cwes.card then (pairsAsc (cwes.sort (· ≤ ·))).foldl bump m else m

/-- The `edge_weights` mapping of `build_cwe_cooccurrence_graph`, folded over
the weakness set of every record in `data['cve_to_cwes']`. -/
def cwe_cooccurrence (weaknessSets : List (Finset String)) : String × String → Nat :=
  weaknessSets.foldl addCoocRecord (fun _ => 0)

theorem pairsAsc_length (l : List String) : (pairsAsc l).length = l.length.choose 2 := by
  induction l with
  | nil => rfl
  | cons x xs ih =>
      simp only [pairsAsc, List.length_append, List.length_map, ih, List.length_cons]
      rw [Nat.choose_succ_succ, Nat.choose_one_right]

theorem mem_pairsAsc (l : List String) (hl : l.Pairwise (· < ·)) (p : String × String) :
    p ∈ pairsAsc l ↔ p.1 ∈ l ∧ p.2 ∈ l ∧ p.1 < p.2 := by
  induction l with
  | nil => simp [pairsAsc]
  | cons x xs ih =>
      rcases List.pairwise_cons.mp hl with ⟨hx, hxs⟩
      simp only [pairsAsc, List.mem_append, List.mem_map, List.mem_cons, ih hxs]
      constructor
      · rintro (⟨y, hy, rfl⟩ | ⟨h1, h2, h3⟩)
        · exact ⟨Or.inl rfl, Or.inr hy, hx y hy⟩
        · exact ⟨Or.inr h1, Or.inr h2, h3⟩
      · rintro ⟨h1 | h1, h2 | h2, h3⟩
        · exact absurd h3 (by simp [h1, h2])
        · exact Or.inl ⟨p.2, h2, by simp [← h1]⟩
        · exact absurd (lt_trans (hx _ h1) h3) (by simp [h2])
        · exact Or.inr ⟨h1, h2, h3⟩

theorem pairsAsc_nodup (l : List String) (hl : l.Pairwise (· < ·)) :
    (pairsAsc l).Nodup := by
  induction l with
  | nil => simp [pairsAsc]
  | cons x xs ih =>
      rcases List.pairwise_cons.mp hl with ⟨hx, hxs⟩
      have hnd : xs.Nodup := hxs.imp ne_of_lt
      refine (List.nodup_append).mpr ⟨?_, ih hxs, ?_⟩
      · exact hnd.map (fun a b hab => by simpa using congrArg Prod.snd hab)
      · intro q hq hq'
        rcases List.mem_map.mp hq with ⟨y, _, rfl⟩
        have h1 := ((mem_pairsAsc xs hxs _).mp hq').1
        exact absurd rfl (ne_of_gt (hx x h1)).symm

theorem countP_eq_one_of_nodup_mem {α : Type} [DecidableEq α] {l : List α} {a : α}
    (hnd : l.Nodup) (hmem : a ∈ l) : l.countP (fun q => decide (q = a)) = 1 := by
  induction l with
  | nil => cases hmem
  | cons b l ih =>
      rcases List.nodup_cons.mp hnd with ⟨hb, hl⟩
      rcases List.mem_cons.mp hmem with h | h
      · subst h
        have hz : l.countP (fun q => decide (q = a)) = 0 :=
          List.countP_eq_zero.mpr (fun x hx => by
            simp only [decide_eq_true_eq]
            exact fun he => hb (he ▸ hx))
        simp [List.countP_cons, hz]
      · have hba : ¬ b = a := fun he => hb (he ▸ h)
        simp [List.countP_cons, ih hl h, hba]

theorem foldl_bump_apply (ks : List (String × String)) (m : String × String → Nat)
    (p : String × String) :
    ks.foldl bump m p = m p + ks.countP (fun q => decide (q = p)) := by
  induction ks generalizing m with
  | nil => simp
  | cons k ks ih =>
      simp only [List.foldl_cons, ih, List.countP_cons, bump]
      by_cases h : p = k
      · subst h
        simp
        omega
      · have hk : ¬ k = p := fun he => h he.symm
        simp [h, hk]

theorem sort_pairwise_lt (s : Finset String) : (s.sort (· ≤ ·)).Pairwise (· < ·) := by
  have h1 := s.sort_sorted (· ≤ ·)
  have h2 := s.sort_nodup (· ≤ ·)
  exact h1.lt_of_le h2

/-- Net pointwise effect of one record on the co-occurrence mapping. -/
theorem addCoocRecord_apply (m : String × String → Nat) (s : Finset String)
    (p : String × String) :
    addCoocRecord m s p = if p.1 ∈ s ∧ p.2 ∈ s ∧ p.1 < p.2 then m p + 1 else m p := by
  unfold addCoocRecord
  by_cases hcard : 1 < s.card
  · simp only [hcard, if_true]
    rw [foldl_bump_apply]
    have hmem := mem_pairsAsc (s.sort (· ≤ ·)) (sort_pairwise_lt s) p
    have hnd := pairsAsc_nodup (s.sort (· ≤ ·)) (sort_pairwise_lt s)
    simp only [Finset.mem_sort] at hmem
    by_cases h : p.1 ∈ s ∧ p.2 ∈ s ∧ p.1 < p.2
    · rw [if_pos h, countP_eq_one_of_nodup_mem hnd (hmem.mpr h)]
    · rw [if_neg h, List.countP_eq_zero.mpr
        (fun q hq => by
          simp only [decide_eq_true_eq]
          exact fun he => h (hmem.mp (he ▸ hq))), Nat.add_zero]
  · simp only [hcard, if_false]
    have : ¬ (p.1 ∈ s ∧ p.2 ∈ s ∧ p.1 < p.2) := by
      rintro ⟨h1, h2, h3⟩
      exact hcard (Finset.one_lt_card.mpr ⟨p.1, h1, p.2, h2, ne_of_lt h3⟩)
    rw [if_neg this]

theorem parse_assoc_foldl (records : List Record) (m : String × String → Nat)
    (p : String × String) :
    records.foldl addRecordAssoc m p =
      m p + records.countP (fun r => decide (p.1 = r.cna ∧ p.2 ∈ r.cwes)) := by
  induction records generalizing m with
  | nil => simp
  | cons r rs ih =>
      simp only [List.foldl_cons, ih, List.countP_cons, addRecordAssoc]
      by_cases h : p.1 = r.cna ∧ p.2 ∈ r.cwes <;> simp [h] <;> omega

theorem mem_assocKeys (records : List Record) (p : String × String) :
    p ∈ assocKeys records ↔ ∃ r ∈ records, r.cna = p.1 ∧ p.2 ∈ r.cwes := by
  have key : ∀ (l : List Record) (K : Finset (String × String)),
      p ∈ l.foldl (fun K r => K ∪ r.cwes.image (fun w => (r.cna, w))) K ↔
        p ∈ K ∨ ∃ r ∈ l, r.cna = p.1 ∧ p.2 ∈ r.cwes := by
    intro l
    induction l with
    | nil => simp
    | cons r rs ih =>
        intro K
        simp only [List.foldl_cons, ih, Finset.mem_union, Finset.mem_image, List.mem_cons]
        constructor
        · rintro ((hK | ⟨w, hw, hwp⟩) | ⟨r', hr', h1, h2⟩)
          · exact Or.inl hK
          · refine Or.inr ⟨r, Or.inl rfl, ?_, ?_⟩
            · simpa using congrArg Prod.fst hwp
            · have h2 : (r.cna, w).2 = p.2 := congrArg Prod.snd hwp
              simpa using h2 ▸ hw
          · exact Or.inr ⟨r', Or.inr hr', h1, h2⟩
        · rintro (hK | ⟨r', hr' | hr', h1, h2⟩)
          · exact Or.inl (Or.inl hK)
          · subst hr'
            exact Or.inl (Or.inr ⟨p.2, h2, by simp [Prod.ext_iff, h1]⟩)
          · exact Or.inr ⟨r', hr', h1, h2⟩
  rw [assocKeys, key records ∅]
  simp

/-- C1: a record whose weakness set has `k` elements contributes exactly one
increment to each of the `C(k,2)` unordered weakness pairs of that set (the
pair list has length `k.choose 2`, has no duplicate, and the pointwise effect
adds `1` exactly on the sorted pairs drawn from the set); and on the
three-record scenario (R1: authority `A`, weaknesses CWE-79 and CWE-89; R2:
authority `A`, weakness CWE-79; R3: authority `B`, weakness CWE-89) the
authority-weakness mapping is `(A, CWE-79) = 2`, `(A, CWE-89) = 1`,
`(B, CWE-89) = 1` and zero elsewhere, and the weakness co-occurrence mapping
is `(CWE-79, CWE-89) = 1` and zero elsewhere. -/
theorem claim_C1 :
    (∀ s : Finset String,
        (pairsAsc (s.sort (· ≤ ·))).length = s.card.choose 2 ∧
        (pairsAsc (s.sort (· ≤ ·))).Nodup) ∧
    (∀ (m : String × String → Nat) (s : Finset String) (p : String × String),
        addCoocRecord m s p =
          if p.1 ∈ s ∧ p.2 ∈ s ∧ p.1 < p.2 then m p + 1 else m p) ∧
    (∀ p : String × String,
        parse_cve_files_assoc
            [⟨"A", {"CWE-79", "CWE-89"}⟩, ⟨"A", {"CWE-79"}⟩, ⟨"B", {"CWE-89"}⟩] p =
          if p = ("A", "CWE-79") then 2
          else if p = ("A", "CWE-89") then 1
          else if p = ("B", "CWE-89") then 1
          else 0) ∧
    (∀ p : String × String,
        cwe_cooccurrence [{"CWE-79", "CWE-89"}, {"CWE-79"}, {"CWE-89"}] p =
          if p = ("CWE-79", "CWE-89") then 1 else 0) := by
  refine ⟨?_, ?_, ?_, ?_⟩
  · intro s
    refine ⟨?_, pairsAsc_nodup _ (sort_pairwise_lt s)⟩
    rw [pairsAsc_length, Finset.length_sort]
  · exact addCoocRecord_apply
  · intro p
    obtain ⟨a, b⟩ := p
    have h1 : ("CWE-79" : String) ≠ "CWE-89" := by decide
    have h2 : ("A" : String) ≠ "B" := by decide
    simp only [parse_cve_files_assoc, List.foldl, addRecordAssoc, Finset.mem_insert,
      Finset.mem_singleton, Prod.mk.injEq]
    split_ifs <;> simp_all
  · intro p
    obtain ⟨a, b⟩ := p
    have h1 : ("CWE-79" : String).data < ("CWE-89" : String).data := by decide
    have h2 : ¬ ("CWE-79" : String).data < ("CWE-79" : String).data := by decide
    have h3 : ¬ ("CWE-89" : String).data < ("CWE-89" : String).data := by decide
    have h4 : ¬ ("CWE-89" : String).data < ("CWE-79" : String).data := by decide
    simp only [cwe_cooccurrence, List.foldl, addCoocRecord_apply, Finset.mem_insert,
      Finset.mem_singleton, Prod.mk.injEq]
    split_ifs <;> simp_all
    · rename_i hcon
      obtain ⟨ha, hb, hab⟩ := hcon
      subst ha; subst hb
      exact absurd hab (by decide)
    · rename_i hcon
      obtain ⟨ha, hb, hab⟩ := hcon
      subst ha; subst hb
      exact absurd hab (by decide)
    · rename_i h5 h6 h7 h8
      obtain ⟨ha, hb, hab⟩ := h7
      rcases ha with ha | ha <;> rcases hb with hb | hb <;> subst ha <;> subst hb
      · exact absurd hab (by decide)
      · exact h8 rfl rfl
      · exact absurd hab (by decide)
      · exact h5 rfl rfl

/-- C2, refuted as stated: on the single-record corpus whose record has
authority `A` and the two weaknesses CWE-79 and CWE-89, the total incident
weight of `A` in the association mapping is `2`, while only `1` record
contributed `A` to any `(A, *)` pair. -/
theorem claim_C2_counterexample :
    ¬ (∑ p ∈ (assocKeys [⟨"A", {"CWE-79", "CWE-89"}⟩]).filter (fun p => p.1 = "A"),
          parse_cve_files_assoc [⟨"A", {"CWE-79", "CWE-89"}⟩] p =
        List.countP (fun r : Record => decide (r.cna = "A" ∧ r.cwes ≠ ∅))
          [⟨"A", {"CWE-79", "CWE-89"}⟩]) := by
  decide

/-- C2, amended: for every corpus of normalized records and every authority
`a`, the sum of the association mapping's counts over all keys `(a, b)` equals
the total number of (record, weakness) contribution events for `a`, that is,
the sum over the records with authority `a` of the size of their weakness
sets (this equals the number of contributing records only when every such
record carries at most one weakness). -/
theorem claim_C2_amended (records : List Record) (a : String) :
    ∑ p ∈ (assocKeys records).filter (fun p => p.1 = a),
        parse_cve_files_assoc records p =
      ((records.filter (fun r => r.cna = a)).map (fun r => r.cwes.card)).sum := by
  have main : ∀ (l : List Record) (K : Finset (String × String)),
      (∀ r ∈ l, r.cna = a → ∀ w ∈ r.cwes, (a, w) ∈ K) →
      ∑ p ∈ K.filter (fun p => p.1 = a), l.foldl addRecordAssoc (fun _ => 0) p =
        ((l.filter (fun r => r.cna = a)).map (fun r => r.cwes.card)).sum := by
    intro l
    induction l with
    | nil => simp [parse_assoc_foldl]
    | cons r rs ih =>
        intro K hK
        have step : ∀ p : String × String,
            (r :: rs).foldl addRecordAssoc (fun _ => 0) p =
              (if p.1 = r.cna ∧ p.2 ∈ r.cwes then 1 else 0) +
                rs.foldl addRecordAssoc (fun _ => 0) p := by
          intro p
          rw [parse_assoc_foldl, parse_assoc_foldl, List.countP_cons]
          by_cases h : p.1 = r.cna ∧ p.2 ∈ r.cwes <;> simp [h] <;> omega
        calc ∑ p ∈ K.filter (fun p => p.1 = a), (r :: rs).foldl addRecordAssoc (fun _ => 0) p
            = (∑ p ∈ K.filter (fun p => p.1 = a),
                (if p.1 = r.cna ∧ p.2 ∈ r.cwes then 1 else 0)) +
              ∑ p ∈ K.filter (fun p => p.1 = a), rs.foldl addRecordAssoc (fun _ => 0) p := by
              rw [← Finset.sum_add_distrib]
              exact Finset.sum_congr rfl (fun p _ => step p)
          _ = ((((r :: rs).filter (fun r => r.cna = a)).map (fun r => r.cwes.card)).sum) := by
              rw [ih K (fun r' hr' => hK r' (List.mem_cons_of_mem r hr'))]
              by_cases hra : r.cna = a
              · have hset : (K.filter (fun p => p.1 = a)).filter
                    (fun p => p.1 = r.cna ∧ p.2 ∈ r.cwes) =
                      r.cwes.image (fun w => (a, w)) := by
                  ext q
                  simp only [Finset.mem_filter, Finset.mem_image]
                  constructor
                  · rintro ⟨⟨hqK, hq1⟩, _, hq2⟩
                    exact ⟨q.2, hq2, by rw [Prod.ext_iff]; exact ⟨hq1.symm, rfl⟩⟩
                  · rintro ⟨w, hw, rfl⟩
                    exact ⟨⟨hK r (List.mem_cons_self r rs) hra w hw, rfl⟩, hra.symm, hw⟩
                have hcard : ∑ p ∈ K.filter (fun p => p.1 = a),
                    (if p.1 = r.cna ∧ p.2 ∈ r.cwes then 1 else 0) = r.cwes.card := by
                  rw [← Finset.sum_filter, hset]
                  rw [Finset.sum_const, smul_eq_mul, mul_one,
                    Finset.card_image_of_injective _ (fun x y hxy => by
                      simpa using congrArg Prod.snd hxy)]
                have hfil : (r :: rs).filter (fun r => r.cna = a) =
                    r :: rs.filter (fun r => r.cna = a) := by
                  simp [List.filter_cons, hra]
                rw [hfil, List.map_cons, List.sum_cons, hcard]
              · have hzero : ∑ p ∈ K.filter (fun p => p.1 = a),
                    (if p.1 = r.cna ∧ p.2 ∈ r.cwes then 1 else 0) = 0 := by
                  refine Finset.sum_eq_zero (fun p hp => ?_)
                  rcases Finset.mem_filter.mp hp with ⟨_, hp1⟩
                  have : ¬ (p.1 = r.cna ∧ p.2 ∈ r.cwes) := by
                    rintro ⟨hc, _⟩
                    exact hra (hc.symm.trans hp1)
                  simp [this]
                have hfil : (r :: rs).filter (fun r => r.cna = a) =
                    rs.filter (fun r => r.cna = a) := by
                  simp [List.filter_cons, hra]
                rw [hfil, hzero, Nat.zero_add]
  refine main records (assocKeys records) (fun r hr hra w hw => ?_)
  rw [mem_assocKeys]
  exact ⟨r, hr, by rw [hra], hw⟩

/-- The `datePublished` field of a raw document as seen by the date filters:
absent, present but rejected by `datetime.fromisoformat`, or parsed to a
timestamp `t` (an abstract instant on the UTC time line) that either carries
an explicit offset (`aware = true`) or is naive (`aware = false`, `t` then
being the wall-clock value read as UTC). -/
inductive DateField where
  | missing
  | unparseable
  | parsed (t : Int) (aware : Bool)
deriving DecidableEq

/-- Date gate of `parse_cve_files` (`scripts/build_graph.py` lines 84-96):
a missing field is not filtered; a parse failure falls into the
`except (ValueError, AttributeError): pass` branch and the document is kept;
a parsed naive timestamp is re-tagged as UTC (same clock value) before the
comparison; a timestamp strictly before the cutoff hits `continue`.
Returns `true` when the document is kept. -/
def keepDate_parse_cve_files (d : DateField) (cutoff : Int) : Bool :=
  match d with
  | .missing => true
  | .unparseable => true
  | .parsed t _ => if t < cutoff then false else true

/-- Date gate of `parse_cve_analytical_data`
(`scripts/build_analytical_graphs.py` lines 58-69): a parse failure hits
`except (ValueError, AttributeError): continue` and the document is dropped;
a missing field hits the `else: continue` branch and the document is dropped;
a parsed naive timestamp makes the comparison with the aware cutoff raise
`TypeError`, which is swallowed by the outer `except Exception: continue`,
dropping the document; otherwise a timestamp strictly before the cutoff is
dropped. Returns `true` when the document is kept. -/
def keepDate_parse_cve_analytical (d : DateField) (cutoff : Int) : Bool :=
  match d with
  | .missing => false
  | .unparseable => false
  | .parsed t aware =>
      if aware then (if t < cutoff then false else true) else false

/-- C3, refuted as stated: the claim asserts fail-open for every normalizer,
but `parse_cve_analytical_data` drops a document whose publication timestamp
is present and fails ISO-8601 parsing (while `parse_cve_files` keeps it). -/
theorem claim_C3_counterexample :
    ¬ (keepDate_parse_cve_analytical .unparseable 0 = true) ∧
      keepDate_parse_cve_files .unparseable 0 = true := by
  decide

/-- C3, amended: in `parse_cve_files` (`scripts/build_graph.py`) a present but
unparseable timestamp is kept (fail open), a parsed timestamp is dropped
exactly when it is strictly before the cutoff, and a naive timestamp is
treated as UTC (it is handled identically to an aware timestamp with the same
clock value); in `parse_cve_analytical_data`
(`scripts/build_analytical_graphs.py`) an unparseable or missing timestamp
drops the document, a naive timestamp drops it through the uncaught
`TypeError`, and an aware timestamp is dropped exactly when it is strictly
before the cutoff. -/
theorem claim_C3_amended :
    (∀ c : Int, keepDate_parse_cve_files .unparseable c = true) ∧
    (∀ c : Int, keepDate_parse_cve_files .missing c = true) ∧
    (∀ (t c : Int) (aware : Bool),
        keepDate_parse_cve_files (.parsed t aware) c = if t < c then false else true) ∧
    (∀ (t c : Int),
        keepDate_parse_cve_files (.parsed t false) c =
          keepDate_parse_cve_files (.parsed t true) c) ∧
    (∀ c : Int, keepDate_parse_cve_analytical .unparseable c = false) ∧
    (∀ c : Int, keepDate_parse_cve_analytical .missing c = false) ∧
    (∀ (t c : Int), keepDate_parse_cve_analytical (.parsed t false) c = false) ∧
    (∀ (t c : Int),
        keepDate_parse_cve_analytical (.parsed t true) c =
          if t < c then false else true) := by
  refine ⟨fun c => rfl, fun c => rfl, fun t c aware => rfl, fun t c => rfl,
    fun c => rfl, fun c => rfl, fun t c => rfl, fun t c => ?_⟩
  simp [keepDate_parse_cve_analytical]

/-- One weighted edge of the CNA-CWE graph: the key is the (mapped CNA name,
CWE) pair handed to `G.add_edge`, the weight is the `weight=count` attribute. -/
structure WEdge where
  key : String × String
  weight : Nat
deriving DecidableEq

/-- `G.add_edge(name, cwe, weight=count)` against an existing edge list:
networkx keeps a single edge per key and overwrites its attributes, so an
existing key has its weight replaced and a new key is appended. -/
def upsert (es : List WEdge) (k : String × String) (w : Nat) : List WEdge :=
  match es with
  | [] => [⟨k, w⟩]
  | e :: rest => if e.key = k then ⟨k, w⟩ :: rest else e :: upsert rest k w

/-- The graph built by `build_graph` (`scripts/build_graph.py` lines 189-218)
from the `associations.items()` list and the `cna_names` mapping: CNA nodes
are keyed by `cna_names.get(uuid, uuid)`, CWE nodes by the CWE string, and
one `add_edge(cna_name, cwe, weight=count)` call is made per association
item. -/
structure BGraph where
  cnaNodes : Finset String
  cweNodes : Finset String
  edges : List WEdge

/-- `cna_names.get(cna_uuid, cna_uuid)`. -/
def nameOf (names : List (String × String)) (uuid : String) : String :=
  ((names.find? (fun q => q.1 = uuid)).map (fun q => q.2)).getD uuid

/-- The edge list of `build_graph`: the `add_edge` loop over
`associations.items()` in insertion order. -/
def buildEdges (names : List (String × String))
    (items : List ((String × String) × Nat)) : List WEdge :=
  items.foldl (fun es kv => upsert es (nameOf names kv.1.1, kv.1.2) kv.2) []

/-- `build_graph` itself: the `cnas` and `cwes` sets are collected from the
association keys, CNA nodes are added under their mapped display names, CWE
nodes under the raw CWE strings, then the edges. -/
def build_graph (names : List (String × String))
    (items : List ((String × String) × Nat)) : BGraph :=
  { cnaNodes :=
      Finset.image (nameOf names)
        (items.foldl (fun s kv => insert kv.1.1 s) (∅ : Finset String))
    cweNodes := items.foldl (fun s kv => insert kv.1.2 s) (∅ : Finset String)
    edges := buildEdges names items }

theorem upsert_mem {es : List WEdge} {k : String × String} {w : Nat} {e : WEdge}
    (h : e ∈ upsert es k w) : e = ⟨k, w⟩ ∨ e ∈ es := by
  induction es with
  | nil => simpa [upsert] using h
  | cons e' rest ih =>
      by_cases hk : e'.key = k
      · rcases List.mem_cons.mp (by simpa [upsert, hk] using h) with h1 | h1
        · exact Or.inl h1
        · exact Or.inr (List.mem_cons_of_mem _ h1)
      · rcases List.mem_cons.mp (by simpa [upsert, hk] using h) with h1 | h1
        · exact Or.inr (h1 ▸ List.mem_cons_self _ _)
        · rcases ih h1 with h2 | h2
          · exact Or.inl h2
          · exact Or.inr (List.mem_cons_of_mem _ h2)

theorem buildEdges_mem {names : List (String × String)}
    {items : List ((String × String) × Nat)} {e : WEdge}
    (h : e ∈ buildEdges names items) :
    ∃ kv ∈ items, e.key = (nameOf names kv.1.1, kv.1.2) ∧ e.weight = kv.2 := by
  have key : ∀ (l : List ((String × String) × Nat)) (acc : List WEdge),
      e ∈ l.foldl (fun es kv => upsert es (nameOf names kv.1.1, kv.1.2) kv.2) acc →
      e ∈ acc ∨ ∃ kv ∈ l, e.key = (nameOf names kv.1.1, kv.1.2) ∧ e.weight = kv.2 := by
    intro l
    induction l with
    | nil => intro acc h; exact Or.inl h
    | cons kv rest ih =>
        intro acc h
        rcases ih _ h with h1 | h1
        · rcases upsert_mem h1 with h2 | h2
          · exact Or.inr ⟨kv, List.mem_cons_self _ _, by rw [h2], by rw [h2]⟩
          · exact Or.inl h2
        · rcases h1 with ⟨kv', hkv', h2⟩
          exact Or.inr ⟨kv', List.mem_cons_of_mem _ hkv', h2⟩
  rcases key items [] h with h1 | h1
  · cases h1
  · exact h1

theorem mem_foldl_insert {l : List ((String × String) × Nat)}
    {f : (String × String) × Nat → String} {x : String} {s : Finset String} :
    x ∈ l.foldl (fun s kv => insert (f kv) s) s ↔ x ∈ s ∨ ∃ kv ∈ l, f kv = x := by
  induction l generalizing s with
  | nil => simp
  | cons kv rest ih =>
      simp only [List.foldl_cons, ih, Finset.mem_insert, List.mem_cons]
      constructor
      · rintro ((h | h) | ⟨kv', h1, h2⟩)
        · exact Or.inr ⟨kv, Or.inl rfl, h.symm⟩
        · exact Or.inl h
        · exact Or.inr ⟨kv', Or.inr h1, h2⟩
      · rintro (h | ⟨kv', h1 | h1, h2⟩)
        · exact Or.inl (Or.inr h)
        · exact Or.inl (Or.inl (by subst h1; exact h2.symm))
        · exact Or.inr ⟨kv', h1, h2⟩

/-- Weight attribute of the edge stored under key `k`, if any (the networkx
`G[u][v]['weight']` access). -/
def lookupWeight (es : List WEdge) (k : String × String) : Option Nat :=
  (es.find? (fun e => decide (e.key = k))).map (fun e => e.weight)

theorem lookupWeight_upsert_self (es : List WEdge) (k : String × String) (w : Nat) :
    lookupWeight (upsert es k w) k = some w := by
  induction es with
  | nil => simp [upsert, lookupWeight]
  | cons e rest ih =>
      by_cases hk : e.key = k
      · simp [upsert, hk, lookupWeight]
      · simpa [upsert, hk, lookupWeight, List.find?_cons] using ih

theorem lookupWeight_upsert_other (es : List WEdge) (k k' : String × String) (w : Nat)
    (h : k' ≠ k) : lookupWeight (upsert es k w) k' = lookupWeight es k' := by
  induction es with
  | nil => simp [upsert, lookupWeight, List.find?_cons, Ne.symm h]
  | cons e rest ih =>
      by_cases hk : e.key = k
      · simp [upsert, hk, lookupWeight, List.find?_cons, Ne.symm h]
      · by_cases hk' : e.key = k'
        · simp [upsert, hk, lookupWeight, List.find?_cons, hk', h]
        · simpa [upsert, hk, lookupWeight, List.find?_cons, hk'] using ih

/-- The weight recorded for key `k` after `build_graph`'s edge loop is the one
of the last association item mapping onto `k`: earlier weights for the same
merged key are overwritten, not summed. -/
theorem lookupWeight_buildEdges (names : List (String × String))
    (items : List ((String × String) × Nat)) (k : String × String) :
    lookupWeight (buildEdges names items) k =
      (items.reverse.find?
        (fun kv => decide ((nameOf names kv.1.1, kv.1.2) = k))).map (fun kv => kv.2) := by
  induction items using List.reverseRecOn with
  | nil => rfl
  | append_singleton l x ih =>
      rw [buildEdges, List.foldl_append]
      simp only [List.foldl_cons, List.foldl_nil]
      rw [List.reverse_append]
      simp only [List.reverse_singleton, List.singleton_append, List.find?_cons]
      by_cases hk : (nameOf names x.1.1, x.1.2) = k
      · rw [hk, lookupWeight_upsert_self]
        simp [hk]
      · rw [lookupWeight_upsert_other _ _ _ _ (fun he => hk he.symm)]
        simpa [hk] using ih

/-- C8: `build_graph` keys authority nodes by display name, so two distinct
UUIDs with equal display names merge into a single node, and when both carry
an association with the same weakness the edge weight is the count of the
association processed last (weights are overwritten, not summed). -/
theorem claim_C8 (names : List (String × String)) (u1 u2 w : String) (c1 c2 : Nat)
    (l1 l2 l3 : List ((String × String) × Nat))
    (hu : u1 ≠ u2) (hn : nameOf names u1 = nameOf names u2)
    (hl3 : ∀ kv ∈ l3, (nameOf names kv.1.1, kv.1.2) ≠ (nameOf names u1, w)) :
    (build_graph names [((u1, w), c1), ((u2, w), c2)]).cnaNodes =
      {nameOf names u1} ∧
    lookupWeight
        (build_graph names (l1 ++ ((u1, w), c1) :: l2 ++ ((u2, w), c2) :: l3)).edges
        (nameOf names u1, w) = some c2 := by
  constructor
  · show Finset.image (nameOf names) _ = _
    have huu : ([((u1, w), c1), ((u2, w), c2)].foldl
        (fun s kv => insert kv.1.1 s) (∅ : Finset String)) = {u2, u1} := by
      simp [List.foldl_cons, List.foldl_nil]
    rw [huu]
    ext x
    simp only [Finset.mem_image, Finset.mem_insert, Finset.mem_singleton]
    constructor
    · rintro ⟨u, hu2 | hu1, rfl⟩
      · rw [hu2, ← hn]
      · rw [hu1]
    · rintro rfl
      exact ⟨u1, Or.inr rfl, rfl⟩
  · show lookupWeight (buildEdges names _) _ = _
    rw [lookupWeight_buildEdges]
    have hsplit : (l1 ++ ((u1, w), c1) :: l2 ++ ((u2, w), c2) :: l3).reverse =
        l3.reverse ++ ((u2, w), c2) :: (l2.reverse ++ ((u1, w), c1) :: l1.reverse) := by
      simp
    rw [hsplit, List.find?_append]
    have h3 : l3.reverse.find?
        (fun kv => decide ((nameOf names kv.1.1, kv.1.2) = (nameOf names u1, w))) = none := by
      rw [List.find?_eq_none]
      intro kv hkv
      simpa using hl3 kv (List.mem_reverse.mp hkv)
    rw [h3, Option.none_or, List.find?_cons]
    have : ((nameOf names u2, w) = (nameOf names u1, w)) := by rw [hn]
    simp [this]

/-- C10: every node of the graph produced by `build_graph` is an endpoint of
at least one edge, because both node sets are derived from the association
keys and one edge is added per key. -/
theorem claim_C10 (names : List (String × String))
    (items : List ((String × String) × Nat)) (n : String)
    (h : n ∈ (build_graph names items).cnaNodes ∨
         n ∈ (build_graph names items).cweNodes) :
    ∃ e ∈ (build_graph names items).edges, n = e.key.1 ∨ n = e.key.2 := by
  have edge_for : ∀ kv ∈ items, ∃ e ∈ buildEdges names items,
      e.key = (nameOf names kv.1.1, kv.1.2) := by
    intro kv hkv
    have hfind : ∃ kv', items.reverse.find?
        (fun q => decide ((nameOf names q.1.1, q.1.2) = (nameOf names kv.1.1, kv.1.2))) =
          some kv' :=
      Option.isSome_iff_exists.mp
        (List.find?_isSome.mpr ⟨kv, List.mem_reverse.mpr hkv, by simp⟩)
    obtain ⟨kv', hkv'⟩ := hfind
    have hlw : lookupWeight (buildEdges names items) (nameOf names kv.1.1, kv.1.2) =
        some kv'.2 := by
      rw [lookupWeight_buildEdges, hkv']
      rfl
    rw [lookupWeight] at hlw
    obtain ⟨e, he, _⟩ := Option.map_eq_some'.mp hlw
    exact ⟨e, List.mem_of_find?_eq_some he, by simpa using List.find?_some he⟩
  rcases h with h | h
  · rcases Finset.mem_image.mp h with ⟨u, hu, rfl⟩
    rcases mem_foldl_insert.mp hu with h0 | ⟨kv, hkv, rfl⟩
    · cases Finset.not_mem_empty _ h0
    · rcases edge_for kv hkv with ⟨e, he, hek⟩
      exact ⟨e, he, Or.inl (by rw [hek])⟩
  · rcases mem_foldl_insert.mp h with h0 | ⟨kv, hkv, rfl⟩
    · cases Finset.not_mem_empty _ h0
    · rcases edge_for kv hkv with ⟨e, he, hek⟩
      exact ⟨e, he, Or.inr (by rw [hek])⟩

/-- One edge of the temporal chaining graph as materialized by
`G.add_edge(cve1, cve2, product=product_key, days_apart=(date2-date1).days)`
in `build_cve_temporal_graph` (`scripts/build_alternative_graphs.py` lines
287-301): the attribute dictionary holds `product` and `days_apart` but no
`weight` entry, which the `weight` field records as `none`. -/
structure TEdge where
  src : String
  tgt : String
  weight : Option Nat
  product : Option String
  daysApart : Option Int
deriving DecidableEq

/-- Stable insertion of one dated record into a date-sorted list (the element
being inserted comes later in the original list, so it is placed after every
element with a strictly smaller date and before equal dates' successors). -/
def insertByDate (c : String × Int) : List (String × Int) → List (String × Int)
  | [] => [c]
  | x :: xs => if x.2 < c.2 then x :: insertByDate c xs else c :: x :: xs

/-- `cve_list.sort(key=lambda x: x[1])`: stable sort by publication date. -/
def sortByDate : List (String × Int) → List (String × Int)
  | [] => []
  | c :: rest => insertByDate c (sortByDate rest)

/-- The doubly nested pair loop of `build_cve_temporal_graph`: for each `cve1`
every later `cve2` is linked while `(date2 - date1).days <= days_window`, and
the inner loop breaks at the first larger gap. -/
def pairsWithin (window : Int) :
    List (String × Int) → List ((String × Int) × (String × Int))
  | [] => []
  | c :: rest =>
      ((rest.takeWhile (fun c2 => decide (c2.2 - c.2 ≤ window))).map (fun c2 => (c, c2)))
        ++ pairsWithin window rest

/-- The edges of `build_cve_temporal_graph`, taking the per-product CVE lists
(`product_cves` with parsed publication dates) as input. -/
def build_cve_temporal_graph (window : Int)
    (productGroups : List (String × List (String × Int))) : List TEdge :=
  productGroups.flatMap (fun g =>
    (pairsWithin window (sortByDate g.2)).map (fun pr =>
      ⟨pr.1.1, pr.2.1, none, some g.1, some (pr.2.2 - pr.1.2)⟩))

/-- The node set of a networkx graph whose nodes all come from `add_edge`
calls: exactly the edge endpoints. -/
def temporalNodes (edges : List TEdge) : Finset String :=
  (edges.flatMap (fun e => [e.src, e.tgt])).toFinset

theorem pairsWithin_gap {window : Int} {l : List (String × Int)}
    {pr : (String × Int) × (String × Int)} (h : pr ∈ pairsWithin window l) :
    pr.2.2 - pr.1.2 ≤ window := by
  induction l with
  | nil => cases h
  | cons c rest ih =>
      rcases List.mem_append.mp h with h1 | h1
      · rcases List.mem_map.mp h1 with ⟨c2, hc2, rfl⟩
        have hq : decide (c2.2 - c.2 ≤ window) = true :=
          List.mem_takeWhile_imp (l := rest) hc2
        simpa using hq
      · exact ih h1

/-- C4, refuted as stated: the temporal chaining builder materializes an edge
(here between CVE-1 and CVE-2, five days apart on product `p`) that carries no
`weight` attribute at all, so not every projection edge carries a positive
integer weight. -/
theorem claim_C4_counterexample :
    ¬ (∀ e ∈ build_cve_temporal_graph 30 [("p", [("CVE-1", 0), ("CVE-2", 5)])],
        ∃ w : Nat, e.weight = some w ∧ 0 < w) := by
  intro h
  have hm : (⟨"CVE-1", "CVE-2", none, some "p", some 5⟩ : TEdge) ∈
      build_cve_temporal_graph 30 [("p", [("CVE-1", 0), ("CVE-2", 5)])] := by
    decide
  rcases h _ hm with ⟨w, hw, _⟩
  cases hw

/-- C4, amended: both endpoints of every edge are always in the graph's node
set; in `build_graph` every edge's weight is one of the input association
counts (hence positive whenever every aggregated count is positive, which the
aggregator guarantees); but the edges of `build_cve_temporal_graph` carry no
weight attribute: they carry the product key and a day distance at most the
window instead. -/
theorem claim_C4_amended :
    (∀ (names : List (String × String)) (items : List ((String × String) × Nat))
        (e : WEdge), e ∈ (build_graph names items).edges →
        e.key.1 ∈ (build_graph names items).cnaNodes ∧
        e.key.2 ∈ (build_graph names items).cweNodes ∧
        ((∀ kv ∈ items, 0 < kv.2) → 0 < e.weight)) ∧
    (∀ (window : Int) (groups : List (String × List (String × Int))) (e : TEdge),
        e ∈ build_cve_temporal_graph window groups →
        e.src ∈ temporalNodes (build_cve_temporal_graph window groups) ∧
        e.tgt ∈ temporalNodes (build_cve_temporal_graph window groups) ∧
        e.weight = none ∧
        ∃ (pk : String) (d : Int),
          e.product = some pk ∧ e.daysApart = some d ∧ d ≤ window) := by
  constructor
  · intro names items e he
    obtain ⟨kv, hkv, hek, hew⟩ := buildEdges_mem he
    refine ⟨?_, ?_, ?_⟩
    · rw [hek]
      exact Finset.mem_image.mpr ⟨kv.1.1,
        mem_foldl_insert.mpr (Or.inr ⟨kv, hkv, rfl⟩), rfl⟩
    · rw [hek]
      exact mem_foldl_insert.mpr (Or.inr ⟨kv, hkv, rfl⟩)
    · intro hpos
      rw [hew]
      exact hpos kv hkv
  · intro window groups e he
    refine ⟨?_, ?_, ?_, ?_⟩
    · exact List.mem_toFinset.mpr
        (List.mem_flatMap.mpr ⟨e, he, by simp⟩)
    · exact List.mem_toFinset.mpr
        (List.mem_flatMap.mpr ⟨e, he, by simp⟩)
    · obtain ⟨g, _, hmap⟩ := List.mem_flatMap.mp he
      obtain ⟨pr, _, rfl⟩ := List.mem_map.mp hmap
      rfl
    · obtain ⟨g, _, hmap⟩ := List.mem_flatMap.mp he
      obtain ⟨pr, hpr, rfl⟩ := List.mem_map.mp hmap
      exact ⟨g.1, pr.2.2 - pr.1.2, rfl, rfl, pairsWithin_gap hpr⟩

/-- The set of `add_edge(cna, cwe)` calls made while building `full_graph` in
`build_cna_ego_network` (`build_compact_graphs.py` lines 239-247): one pair
per `(cve, cna)` item of `data['cve_to_cna']` and CWE of that CVE (the weight
bookkeeping of the `has_edge` branch does not change the edge set). -/
def fullEdges (cveToCna : List (String × String))
    (cveToCwes : String → Finset String) : Finset (String × String) :=
  cveToCna.foldl (fun E q => E ∪ (cveToCwes q.1).image (fun w => (q.2, w))) ∅

/-- The node set of the undirected `full_graph`: all endpoints of its edges. -/
def graphNodes (E : Finset (String × String)) : Finset String :=
  E.image Prod.fst ∪ E.image Prod.snd

/-- Undirected adjacency of the networkx graph holding the edge calls `E`. -/
def adjacent (E : Finset (String × String)) (u v : String) : Prop :=
  (u, v) ∈ E ∨ (v, u) ∈ E

/-- The undirected neighborhood of `v`. -/
def neighbors (E : Finset (String × String)) (v : String) : Finset String :=
  (E.filter (fun q => q.1 = v)).image Prod.snd ∪
    (E.filter (fun q => q.2 = v)).image Prod.fst

/-- Nodes at hop distance at most `r` from the center `c`, computed by
repeated neighborhood expansion (the breadth-first ball that
`nx.single_source_shortest_path_length(G, c, cutoff=r)` explores). -/
def egoBall (E : Finset (String × String)) (c : String) : Nat → Finset String
  | 0 => {c}
  | r + 1 => egoBall E c r ∪ (egoBall E c r).biUnion (neighbors E)

/-- A materialized subgraph: node set plus the edge calls among those nodes. -/
structure EGraph where
  nodes : Finset String
  edges : Finset (String × String)
deriving DecidableEq

/-- `build_cna_ego_network` (`build_compact_graphs.py` lines 229-266): build
`full_graph` from the data, then, when the center is present, return
`nx.ego_graph(full_graph, cna_name, radius=radius)` — the subgraph induced on
the nodes within `radius` hops of the center — and otherwise an empty
`nx.Graph()`. -/
def build_cna_ego_network (cveToCna : List (String × String))
    (cveToCwes : String → Finset String) (cna_name : String) (radius : Nat) : EGraph :=
  let E := fullEdges cveToCna cveToCwes
  if cna_name ∈ graphNodes E then
    { nodes := egoBall E cna_name radius
      edges := E.filter (fun q =>
        q.1 ∈ egoBall E cna_name radius ∧ q.2 ∈ egoBall E cna_name radius) }
  else
    { nodes := ∅, edges := ∅ }

/-- Existence of a walk of length at most `r` from `c` to the target node. -/
inductive ReachWithin (E : Finset (String × String)) (c : String) : String → Nat → Prop
  | here (r : Nat) : ReachWithin E c c r
  | there (u v : String) (r : Nat) :
      ReachWithin E c u r → adjacent E u v → ReachWithin E c v (r + 1)

theorem reachWithin_succ {E : Finset (String × String)} {c v : String} {r : Nat}
    (h : ReachWithin E c v r) : ReachWithin E c v (r + 1) := by
  induction h with
  | here r => exact ReachWithin.here (r + 1)
  | there u v r hu hadj ih => exact ReachWithin.there u v (r + 1) ih hadj

theorem mem_neighbors {E : Finset (String × String)} {u v : String} :
    v ∈ neighbors E u ↔ adjacent E u v := by
  unfold neighbors adjacent
  simp only [Finset.mem_union, Finset.mem_image, Finset.mem_filter]
  constructor
  · rintro (⟨q, ⟨hq, hq1⟩, rfl⟩ | ⟨q, ⟨hq, hq2⟩, rfl⟩)
    · exact Or.inl (by rw [← hq1]; exact hq)
    · exact Or.inr (by rw [← hq2]; exact hq)
  · rintro (h | h)
    · exact Or.inl ⟨(u, v), ⟨h, rfl⟩, rfl⟩
    · exact Or.inr ⟨(v, u), ⟨h, rfl⟩, rfl⟩

theorem mem_egoBall {E : Finset (String × String)} {c v : String} {r : Nat} :
    v ∈ egoBall E c r ↔ ReachWithin E c v r := by
  induction r generalizing v with
  | zero =>
      simp only [egoBall, Finset.mem_singleton]
      constructor
      · rintro rfl
        exact ReachWithin.here 0
      · intro h
        cases h
        rfl
  | succ r ih =>
      simp only [egoBall, Finset.mem_union, Finset.mem_biUnion]
      constructor
      · rintro (h | ⟨u, hu, hv⟩)
        · exact reachWithin_succ (ih.mp h)
        · exact ReachWithin.there u v r (ih.mp hu) (mem_neighbors.mp hv)
      · intro h
        cases h with
        | here _ =>
            left
            exact ih.mpr (ReachWithin.here r)
        | there u _ _ hu hadj =>
            right
            exact ⟨u, ih.mpr hu, mem_neighbors.mpr hadj⟩

/-- C5, refuted as stated: when the center has a self-loop in the base graph
(data where the authority string of CVE-1 is the string CWE-79 and CVE-1 also
carries the weakness CWE-79), the ego projection at radius 0 returns the
center together with that self-loop edge, not an edge-free graph. -/
theorem claim_C5_counterexample :
    (build_cna_ego_network [("CVE-1", "CWE-79")] (fun _ => {"CWE-79"})
        "CWE-79" 0).nodes = {"CWE-79"} ∧
    ¬ ((build_cna_ego_network [("CVE-1", "CWE-79")] (fun _ => {"CWE-79"})
        "CWE-79" 0).edges = ∅) := by
  decide

/-- C5, amended: when the center is present, the ego projection's node set is
exactly the set of nodes reachable from the center in at most `radius` hops
(center included) and its edge set is exactly the base edges with both
endpoints in that node set; when the center is absent an empty graph is
returned; at radius 0 with the center present the node set is exactly the
center and the edge set consists of the base self-loops at the center (so it
is empty whenever the center has no self-loop). -/
theorem claim_C5_amended (cveToCna : List (String × String))
    (cveToCwes : String → Finset String) (c : String) (r : Nat) :
    (c ∈ graphNodes (fullEdges cveToCna cveToCwes) →
      (∀ v, v ∈ (build_cna_ego_network cveToCna cveToCwes c r).nodes ↔
        ReachWithin (fullEdges cveToCna cveToCwes) c v r) ∧
      (build_cna_ego_network cveToCna cveToCwes c r).edges =
        (fullEdges cveToCna cveToCwes).filter (fun q =>
          q.1 ∈ (build_cna_ego_network cveToCna cveToCwes c r).nodes ∧
          q.2 ∈ (build_cna_ego_network cveToCna cveToCwes c r).nodes)) ∧
    (c ∉ graphNodes (fullEdges cveToCna cveToCwes) →
      (build_cna_ego_network cveToCna cveToCwes c r).nodes = ∅ ∧
      (build_cna_ego_network cveToCna cveToCwes c r).edges = ∅) ∧
    (c ∈ graphNodes (fullEdges cveToCna cveToCwes) →
      (build_cna_ego_network cveToCna cveToCwes c 0).nodes = {c} ∧
      (build_cna_ego_network cveToCna cveToCwes c 0).edges =
        (fullEdges cveToCna cveToCwes).filter (fun q => q = (c, c))) := by
  refine ⟨fun hc => ⟨fun v => ?_, ?_⟩, fun hc => ?_, fun hc => ⟨?_, ?_⟩⟩
  · rw [build_cna_ego_network]
    simp only [hc, if_true]
    exact mem_egoBall
  · rw [build_cna_ego_network]
    simp only [hc, if_true]
  · rw [build_cna_ego_network]
    simp [hc]
  · rw [build_cna_ego_network]
    simp only [hc, if_true]
    rfl
  · rw [build_cna_ego_network]
    simp only [hc, if_true]
    ext q
    simp only [Finset.mem_filter, egoBall, Finset.mem_singleton, Prod.ext_iff]

/-- `vendor_counts[vendor] += count`: dict upsert that preserves first
occurrence order (Python dict insertion order). -/
def addCount (l : List (String × Nat)) (v : String) (c : Nat) : List (String × Nat) :=
  match l with
  | [] => [(v, c)]
  | x :: xs => if x.1 = v then (x.1, x.2 + c) :: xs else x :: addCount xs v c

/-- The `vendor_counts` dict of `build_vendor_vulnerability_profiles`
(`scripts/build_extended_graphs.py` lines 224-226). -/
def vendor_counts (items : List ((String × String) × Nat)) : List (String × Nat) :=
  items.foldl (fun acc kv => addCount acc kv.1.1 kv.2) []

/-- Stable insertion into a count-descending list: the entry being inserted
comes earlier in the original order, so it is placed before entries of equal
count, exactly as Python's stable `sorted(..., reverse=True)`. -/
def insertDesc (c : String × Nat) : List (String × Nat) → List (String × Nat)
  | [] => [c]
  | x :: xs => if c.2 < x.2 then x :: insertDesc c xs else c :: x :: xs

/-- `sorted(pairs, key=lambda x: x[1], reverse=True)`. -/
def sortDescBySnd : List (String × Nat) → List (String × Nat)
  | [] => []
  | c :: rest => insertDesc c (sortDescBySnd rest)

/-- `sorted(vendor_counts.items(), key=lambda x: x[1], reverse=True)[:top_n]`
projected to the vendor names (`top_vendor_names`). -/
def topVendorNames (items : List ((String × String) × Nat)) (n : Nat) : List String :=
  ((sortDescBySnd (vendor_counts items)).take n).map (fun q => q.1)

/-- Node set of `build_vendor_vulnerability_profiles`
(`scripts/build_extended_graphs.py` lines 232-238): for every association
item whose vendor is among the top names, both the vendor node and the CWE
node are added. -/
def build_vendor_vulnerability_profiles_nodes
    (items : List ((String × String) × Nat)) (n : Nat) : Finset String :=
  items.foldl (fun G kv =>
    if kv.1.1 ∈ topVendorNames items n then insert kv.1.2 (insert kv.1.1 G) else G) ∅

/-- `data['cna_to_cves'][cna]`. -/
def lookupCves (cnaToCves : List (String × Finset String)) (cna : String) :
    Finset String :=
  ((cnaToCves.find? (fun q => decide (q.1 = cna))).map (fun q => q.2)).getD ∅

/-- `cna_counts = {cna: len(cves)}` sorted descending, truncated to `top_n`,
projected to the names (`top_cna_names`). -/
def topCnaNames (cnaToCves : List (String × Finset String)) (n : Nat) : List String :=
  ((sortDescBySnd (cnaToCves.map (fun q => (q.1, q.2.card)))).take n).map (fun q => q.1)

/-- Node set of `build_top_cna_cwe_bipartite` (`build_compact_graphs.py`
lines 98-138): every top CNA is added as a node, and every CWE of a CVE of a
top CNA is added as a node when its `(cna, cwe)` count key is materialized. -/
def build_top_cna_cwe_bipartite_nodes (cnaToCves : List (String × Finset String))
    (cveToCwes : String → Finset String) (n : Nat) : Finset String :=
  (topCnaNames cnaToCves n).toFinset ∪
    (topCnaNames cnaToCves n).toFinset.biUnion
      (fun cna => (lookupCves cnaToCves cna).biUnion cveToCwes)

theorem mem_take_mono {α : Type} {l : List α} {m n : Nat} (h : m ≤ n) {x : α}
    (hx : x ∈ l.take m) : x ∈ l.take n := by
  have heq : l.take m = (l.take n).take m := by
    rw [List.take_take, Nat.min_eq_left h]
  exact List.mem_of_mem_take (heq ▸ hx)

theorem topVendorNames_mono {items : List ((String × String) × Nat)} {m n : Nat}
    (h : m ≤ n) {x : String} (hx : x ∈ topVendorNames items m) :
    x ∈ topVendorNames items n := by
  rcases List.mem_map.mp hx with ⟨q, hq, rfl⟩
  exact List.mem_map.mpr ⟨q, mem_take_mono h hq, rfl⟩

theorem topCnaNames_mono {cnaToCves : List (String × Finset String)} {m n : Nat}
    (h : m ≤ n) {x : String} (hx : x ∈ topCnaNames cnaToCves m) :
    x ∈ topCnaNames cnaToCves n := by
  rcases List.mem_map.mp hx with ⟨q, hq, rfl⟩
  exact List.mem_map.mpr ⟨q, mem_take_mono h hq, rfl⟩

theorem profiles_fold_mono (items : List ((String × String) × Nat))
    (T T' : List String) (hT : ∀ x ∈ T, x ∈ T') :
    ∀ (G G' : Finset String), G ⊆ G' →
      items.foldl (fun G kv =>
          if kv.1.1 ∈ T then insert kv.1.2 (insert kv.1.1 G) else G) G ⊆
        items.foldl (fun G kv =>
          if kv.1.1 ∈ T' then insert kv.1.2 (insert kv.1.1 G) else G) G' := by
  induction items with
  | nil => intro G G' hG; simpa using hG
  | cons kv rest ih =>
      intro G G' hG
      simp only [List.foldl_cons]
      by_cases h1 : kv.1.1 ∈ T
      · rw [if_pos h1, if_pos (hT _ h1)]
        exact ih _ _ (Finset.insert_subset_insert _ (Finset.insert_subset_insert _ hG))
      · rw [if_neg h1]
        by_cases h2 : kv.1.1 ∈ T'
        · rw [if_pos h2]
          exact ih _ _ (hG.trans ((Finset.subset_insert _ _).trans
            (Finset.subset_insert _ _)))
        · rw [if_neg h2]
          exact ih _ _ hG

/-- C6: top-N projection is monotonic in N for both cited builders — raising
the threshold can only grow the node set. -/
theorem claim_C6 (n n' : Nat) (h : n ≤ n') :
    (∀ items : List ((String × String) × Nat),
        build_vendor_vulnerability_profiles_nodes items n ⊆
          build_vendor_vulnerability_profiles_nodes items n') ∧
    (∀ (cnaToCves : List (String × Finset String))
        (cveToCwes : String → Finset String),
        build_top_cna_cwe_bipartite_nodes cnaToCves cveToCwes n ⊆
          build_top_cna_cwe_bipartite_nodes cnaToCves cveToCwes n') := by
  constructor
  · intro items
    exact profiles_fold_mono items _ _ (fun x hx => topVendorNames_mono h hx)
      ∅ ∅ (Finset.Subset.refl ∅)
  · intro cnaToCves cveToCwes
    apply Finset.union_subset_union
    · intro x hx
      exact List.mem_toFinset.mpr (topCnaNames_mono h (List.mem_toFinset.mp hx))
    · apply Finset.biUnion_subset_biUnion_of_subset_left
      intro x hx
      exact List.mem_toFinset.mpr (topCnaNames_mono h (List.mem_toFinset.mp hx))

/-- The whitespace class of Python's `str.strip()` (ASCII part). -/
def isPySpace (ch : Char) : Bool :=
  ch == ' ' || ch == '\t' || ch == '\n' || ch == '\r' || ch == '\x0b' || ch == '\x0c'

/-- Python `s.strip()`: drop leading and trailing whitespace. -/
def pyStrip (s : String) : String :=
  ⟨((s.data.dropWhile isPySpace).reverse.dropWhile isPySpace).reverse⟩

/-- Python `s.lower()` (ASCII part). -/
def pyLower (s : String) : String :=
  ⟨s.data.map Char.toLower⟩

/-- Python `s.replace("_", " ")` for the single character underscore. -/
def pyReplaceUnderscore (s : String) : String :=
  ⟨s.data.map (fun ch => if ch = '_' then ' ' else ch)⟩

/-- Worker for Python `s.title()`: a letter is uppercased when the previous
character was not a letter and lowercased otherwise (ASCII part). -/
def pyTitleAux : Bool → List Char → List Char
  | _, [] => []
  | prev, ch :: rest =>
      if ch.isAlpha then
        (if prev then ch.toLower else ch.toUpper) :: pyTitleAux true rest
      else
        ch :: pyTitleAux false rest

/-- Python `s.title()` (ASCII part). -/
def pyTitle (s : String) : String :=
  ⟨pyTitleAux false s.data⟩

/-- Per-affected-item vendor extraction of `parse_cve_extended_data`
(`scripts/build_extended_graphs.py` lines 116-123):
`vendor = item.get("vendor", "").strip()`, then
`if vendor and vendor.lower() not in ["n/a", "unknown", ""]:` the cleaned
name `vendor.lower().replace("_", " ").title()` is added to the record's
vendor set; otherwise the entry contributes nothing. -/
def extendedVendor (raw : String) : Option String :=
  let vendor := pyStrip raw
  if vendor ≠ "" ∧ pyLower vendor ∉ (["n/a", "unknown", ""] : List String) then
    some (pyTitle (pyReplaceUnderscore (pyLower vendor)))
  else none

/-- Per-affected-item vendor extraction of `parse_cve_files_extended`
(`scripts/build_alternative_graphs.py` lines 102-108):
`vendor = item.get("vendor", "").strip()`, then `if vendor:` the raw stripped
string is added to `data['cve_to_vendors']`. -/
def alternativeVendor (raw : String) : Option String :=
  let vendor := pyStrip raw
  if vendor ≠ "" then some vendor else none

/-- C7, refuted as stated: `parse_cve_files_extended`
(`scripts/build_alternative_graphs.py`) records the sentinel vendor
`"unknown"` into the vendor-keyed associations instead of excluding it, and
records `"red_hat"` without case normalization (the normalized form would be
`"Red Hat"`, as `parse_cve_extended_data` produces). -/
theorem claim_C7_counterexample :
    ¬ (alternativeVendor "unknown" = none) ∧
    alternativeVendor "unknown" = some "unknown" ∧
    alternativeVendor "red_hat" = some "red_hat" ∧
    ¬ (alternativeVendor "red_hat" =
        some (pyTitle (pyReplaceUnderscore (pyLower (pyStrip "red_hat"))))) ∧
    extendedVendor "unknown" = none ∧
    extendedVendor "red_hat" = some "Red Hat" := by
  decide

/-- C7, amended: in `parse_cve_extended_data`
(`scripts/build_extended_graphs.py`) every recorded vendor is the stripped
string lowercased, with underscores replaced by spaces, then title-cased, and
entries whose stripped vendor is empty or equals `"n/a"` or `"unknown"`
case-insensitively are excluded; `parse_cve_files_extended`
(`scripts/build_alternative_graphs.py`) instead records the raw stripped
vendor and excludes only empty strings. -/
theorem claim_C7_amended :
    (∀ raw s, extendedVendor raw = some s →
        s = pyTitle (pyReplaceUnderscore (pyLower (pyStrip raw))) ∧
        pyStrip raw ≠ "" ∧
        pyLower (pyStrip raw) ∉ (["n/a", "unknown", ""] : List String)) ∧
    (∀ raw, (pyLower (pyStrip raw) = "n/a" ∨ pyLower (pyStrip raw) = "unknown" ∨
        pyStrip raw = "") → extendedVendor raw = none) ∧
    (∀ raw s, alternativeVendor raw = some s → s = pyStrip raw) ∧
    (∀ raw, alternativeVendor raw = none ↔ pyStrip raw = "") := by
  refine ⟨fun raw s hs => ?_, fun raw hraw => ?_, fun raw s hs => ?_, fun raw => ?_⟩
  · rw [extendedVendor] at hs
    by_cases hc : pyStrip raw ≠ "" ∧
        pyLower (pyStrip raw) ∉ (["n/a", "unknown", ""] : List String)
    · rw [if_pos hc] at hs
      exact ⟨(Option.some.injEq _ _ ▸ hs).symm, hc.1, hc.2⟩
    · rw [if_neg hc] at hs
      cases hs
  · rw [extendedVendor]
    rw [if_neg]
    rintro ⟨hne, hnotin⟩
    rcases hraw with h | h | h
    · exact hnotin (by simp [h])
    · exact hnotin (by simp [h])
    · exact hne h
  · rw [alternativeVendor] at hs
    by_cases hc : pyStrip raw ≠ ""
    · rw [if_pos hc] at hs
      exact (Option.some.injEq _ _ ▸ hs).symm
    · rw [if_neg hc] at hs
      cases hs
  · rw [alternativeVendor]
    by_cases hc : pyStrip raw ≠ ""
    · rw [if_pos hc]
      simp [hc]
    · rw [if_neg hc]
      simpa using not_not.mp hc

/-- One raw document's CNA identification as read by `parse_cve_files`
(`scripts/build_graph.py` lines 98-110): the `assignerOrgId` and the possibly
missing or empty `assignerShortName`. -/
structure RawCna where
  uuid : String
  shortName : Option String
deriving DecidableEq

/-- Python truthiness of the optional short name (`if cna_short_name`). -/
def truthyShort : Option String → Bool
  | none => false
  | some s => !(s == "")

/-- One iteration of the `cna_names` bookkeeping of `parse_cve_files`
(`scripts/build_graph.py` lines 106-110): when the UUID is not yet a key, it
is bound to the short name if that is truthy and to the UUID itself
otherwise; when the UUID is already a key nothing changes. -/
def stepCnaNames (m : List (String × String)) (r : RawCna) : List (String × String) :=
  if truthyShort r.shortName ∧ m.find? (fun q => decide (q.1 = r.uuid)) = none then
    m ++ [(r.uuid, r.shortName.getD "")]
  else if m.find? (fun q => decide (q.1 = r.uuid)) = none then
    m ++ [(r.uuid, r.uuid)]
  else m

/-- The `cna_names` dict accumulated over the corpus. -/
def cna_names (records : List RawCna) : List (String × String) :=
  records.foldl stepCnaNames []

/-- `cna_names.get(uuid)`. -/
def lookupName (m : List (String × String)) (uuid : String) : Option String :=
  (m.find? (fun q => decide (q.1 = uuid))).map (fun q => q.2)

theorem lookupName_append (m : List (String × String)) (k v uuid : String) :
    lookupName (m ++ [(k, v)]) uuid =
      ((lookupName m uuid).or (if k = uuid then some v else none)) := by
  rw [lookupName, lookupName, List.find?_append]
  cases hfind : m.find? (fun q => decide (q.1 = uuid)) with
  | none => by_cases hk : k = uuid <;> simp [List.find?_cons, hk]
  | some q => simp

theorem stepCnaNames_preserves {m : List (String × String)} {r : RawCna}
    {uuid v : String} (h : lookupName m uuid = some v) :
    lookupName (stepCnaNames m r) uuid = some v := by
  rw [stepCnaNames]
  split_ifs with h1 h2
  · rw [lookupName_append, h]
    rfl
  · rw [lookupName_append, h]
    rfl
  · exact h

theorem cnaNames_foldl_preserves {l : List RawCna} {m : List (String × String)}
    {uuid v : String} (h : lookupName m uuid = some v) :
    lookupName (l.foldl stepCnaNames m) uuid = some v := by
  induction l generalizing m with
  | nil => exact h
  | cons r rest ih => exact ih (stepCnaNames_preserves h)

theorem cnaNames_foldl_absent {l : List RawCna} {m : List (String × String)}
    {uuid : String} (hl : ∀ r ∈ l, r.uuid ≠ uuid)
    (h : lookupName m uuid = none) :
    lookupName (l.foldl stepCnaNames m) uuid = none := by
  induction l generalizing m with
  | nil => exact h
  | cons r rest ih =>
      refine ih (fun r' hr' => hl r' (List.mem_cons_of_mem _ hr')) ?_
      rw [stepCnaNames]
      split_ifs with h1 h2
      · rw [lookupName_append, h, if_neg (hl r (List.mem_cons_self _ _))]
        rfl
      · rw [lookupName_append, h, if_neg (hl r (List.mem_cons_self _ _))]
        rfl
      · exact h

/-- C9: the display name bound to a UUID in `cna_names` is fixed by the first
record carrying that UUID — the truthy short name if it has one, otherwise
the UUID itself — and no later record (in particular none that does supply a
short name) ever changes it. -/
theorem claim_C9 (pre post : List RawCna) (r : RawCna) (uuid : String)
    (hr : r.uuid = uuid) (hpre : ∀ r' ∈ pre, r'.uuid ≠ uuid) :
    lookupName (cna_names (pre ++ r :: post)) uuid =
      some (if truthyShort r.shortName then r.shortName.getD "" else uuid) := by
  rw [cna_names, List.foldl_append, List.foldl_cons]
  have habsent : lookupName (pre.foldl stepCnaNames []) uuid = none :=
    cnaNames_foldl_absent hpre rfl
  have hset : lookupName (stepCnaNames (pre.foldl stepCnaNames []) r) uuid =
      some (if truthyShort r.shortName then r.shortName.getD "" else uuid) := by
    rw [stepCnaNames]
    have hfind : (pre.foldl stepCnaNames []).find?
        (fun q => decide (q.1 = r.uuid)) = none := by
      have := habsent
      rw [lookupName] at this
      rw [hr]
      exact Option.map_eq_none'.mp this
    by_cases htr : truthyShort r.shortName
    · rw [if_pos ⟨htr, hfind⟩, lookupName_append, habsent, if_pos hr, htr]
      rfl
    · rw [if_neg (fun hand => htr hand.1), if_pos hfind, lookupName_append,
        habsent, if_pos hr]
      simp [htr, hr]
  exact cnaNames_foldl_preserves hset

/-- Witness for C4 (amended): concrete instantiation of both invariant parts. -/
theorem claim_C4_witness :
    ("Acme" ∈ (build_graph [("u1", "Acme")] [(("u1", "CWE-79"), 2)]).cnaNodes ∧
      "CWE-79" ∈ (build_graph [("u1", "Acme")] [(("u1", "CWE-79"), 2)]).cweNodes ∧
      0 < (2 : Nat)) ∧
    ("CVE-1" ∈ temporalNodes
        (build_cve_temporal_graph 30 [("p", [("CVE-1", 0), ("CVE-2", 5)])]) ∧
      (⟨"CVE-1", "CVE-2", none, some "p", some 5⟩ : TEdge).weight = none) := by
  constructor
  · obtain ⟨h1, h2, h3⟩ := claim_C4_amended.1 [("u1", "Acme")] [(("u1", "CWE-79"), 2)]
      ⟨("Acme", "CWE-79"), 2⟩ (by decide)
    exact ⟨h1, h2, h3 (by decide)⟩
  · obtain ⟨h1, _, h3, _⟩ := claim_C4_amended.2 30 [("p", [("CVE-1", 0), ("CVE-2", 5)])]
      ⟨"CVE-1", "CVE-2", none, some "p", some 5⟩ (by decide)
    exact ⟨h1, h3⟩

/-- Witness for C5 (amended): radius-0 behavior on a present center and the
empty graph on an absent center, at concrete inputs. -/
theorem claim_C5_witness :
    ((build_cna_ego_network [("CVE-1", "A")] (fun _ => {"CWE-79"}) "A" 0).nodes =
        {"A"} ∧
      (build_cna_ego_network [("CVE-1", "A")] (fun _ => {"CWE-79"}) "A" 0).edges =
        (fullEdges [("CVE-1", "A")] (fun _ => {"CWE-79"})).filter
          (fun q => q = ("A", "A"))) ∧
    ((build_cna_ego_network [("CVE-1", "A")] (fun _ => {"CWE-79"}) "B" 3).nodes = ∅ ∧
      (build_cna_ego_network [("CVE-1", "A")] (fun _ => {"CWE-79"}) "B" 3).edges = ∅) := by
  constructor
  · exact (claim_C5_amended [("CVE-1", "A")] (fun _ => {"CWE-79"}) "A" 0).2.2 (by decide)
  · exact (claim_C5_amended [("CVE-1", "A")] (fun _ => {"CWE-79"}) "B" 3).2.1 (by decide)

/-- Witness for C6: the monotonicity instance with thresholds 1 and 2. -/
theorem claim_C6_witness :
    build_vendor_vulnerability_profiles_nodes [(("v", "CWE-79"), 3)] 1 ⊆
      build_vendor_vulnerability_profiles_nodes [(("v", "CWE-79"), 3)] 2 ∧
    build_top_cna_cwe_bipartite_nodes [("a", {"CVE-1"})] (fun _ => {"CWE-79"}) 1 ⊆
      build_top_cna_cwe_bipartite_nodes [("a", {"CVE-1"})] (fun _ => {"CWE-79"}) 2 :=
  ⟨(claim_C6 1 2 (by decide)).1 _, (claim_C6 1 2 (by decide)).2 _ _⟩

/-- Witness for C7 (amended): concrete instantiations of every part. -/
theorem claim_C7_witness :
    ("Red Hat" = pyTitle (pyReplaceUnderscore (pyLower (pyStrip " red_hat "))) ∧
      pyStrip " red_hat " ≠ "" ∧
      pyLower (pyStrip " red_hat ") ∉ (["n/a", "unknown", ""] : List String)) ∧
    extendedVendor " N/A " = none ∧
    "redhat" = pyStrip "redhat" ∧
    (alternativeVendor "" = none ↔ pyStrip "" = "") :=
  ⟨claim_C7_amended.1 " red_hat " "Red Hat" (by decide),
    claim_C7_amended.2.1 " N/A " (Or.inl (by decide)),
    claim_C7_amended.2.2.1 "redhat" "redhat" (by decide),
    claim_C7_amended.2.2.2 ""⟩

/-- Witness for C8: two UUIDs sharing the display name `A`, with counts 2 then
3 for CWE-79; the merged node is `A` and the edge weight is 3, not 5. -/
theorem claim_C8_witness :
    (build_graph [("u1", "A"), ("u2", "A")]
        [(("u1", "CWE-79"), 2), (("u2", "CWE-79"), 3)]).cnaNodes = {"A"} ∧
    lookupWeight (build_graph [("u1", "A"), ("u2", "A")]
        [(("u1", "CWE-79"), 2), (("u2", "CWE-79"), 3)]).edges
      ("A", "CWE-79") = some 3 :=
  claim_C8 [("u1", "A"), ("u2", "A")] "u1" "u2" "CWE-79" 2 3 [] [] []
    (by decide) (by decide) (by decide)

/-- Witness for C9: the first record for the UUID `u` lacks a short name, so
`u` itself stays the display name even though a later record supplies one. -/
theorem claim_C9_witness :
    lookupName (cna_names [⟨"u", none⟩, ⟨"u", some "Nice"⟩]) "u" = some "u" :=
  claim_C9 [] [⟨"u", some "Nice"⟩] ⟨"u", none⟩ "u" rfl (by decide)

/-- Witness for C10: the single node `Acme` of a one-association graph is an
edge endpoint. -/
theorem claim_C10_witness :
    ∃ e ∈ (build_graph [("u1", "Acme")] [(("u1", "CWE-79"), 2)]).edges,
      "Acme" = e.key.1 ∨ "Acme" = e.key.2 :=
  claim_C10 [("u1", "Acme")] [(("u1", "CWE-79"), 2)] "Acme" (Or.inl (by decide))

end CVEMaps
